import Mathlib

set_option maxHeartbeats 1600000

namespace RingZipper

/-- Shallow embedding of the two-stack ring zipper of src/zipper.rs.
The front of a Rust VecDeque is modelled as the head of a Lean list.
A Rust panic (pop_front().unwrap() on an empty deque, or a usize
subtraction underflow) is modelled by the value none. -/
structure Zipper (α : Type) where
  forward : List α
  backward : List α
deriving DecidableEq

/-- The direction to move in, relative to the original order of the elements
in the source sequence. -/
inductive SequenceDirection : Type where
  | Original : SequenceDirection
  | Reverse : SequenceDirection
deriving DecidableEq

/-- The Rust helper push_and_yield: push_front t, then return the deque. -/
def push_and_yield (n : List α) (t : α) : List α := t :: n

/-- The Rust helper push_back_and_yield: push_back t, then return the deque. -/
def push_back_and_yield (n : List α) (t : α) : List α := n ++ [t]

/-- The Rust helper reset: drain pl front to back, pushing each drained
element onto the front of nl; the result is the pair (new nl, new pl). -/
def reset (nl pl : List α) : List α × List α :=
  (pl.foldl push_and_yield nl, [])

/-- The Rust helper pop_push: move the front of pop onto the front of push.
The unwrap panics when pop is empty, modelled by none. -/
def pop_push (pop push : List α) : Option (List α × List α) :=
  match pop with
  | [] => none
  | t :: rest => some (rest, t :: push)

/-- Zipper::new, the empty zipper. -/
def Zipper.new : Zipper α := ⟨[], []⟩

/-- Zipper::size, the number of elements in the zipper. -/
def Zipper.size (z : Zipper α) : Nat := z.forward.length + z.backward.length

/-- Zipper::focus, the front of the forward stack. -/
def Zipper.focus (z : Zipper α) : Option α := z.forward.head?

/-- Zipper::reset_start: reset(&mut self.forward, &mut self.backward). -/
def Zipper.reset_start (z : Zipper α) : Zipper α :=
  match reset z.forward z.backward with
  | (f, b) => ⟨f, b⟩

/-- Zipper::reset_end_impl: reset(&mut self.backward, &mut self.forward). -/
def Zipper.reset_end_impl (z : Zipper α) : Zipper α :=
  match reset z.backward z.forward with
  | (b, f) => ⟨f, b⟩

/-- Zipper::advance_focus: pop an element from the stack matching the
direction of motion and push it onto the reverse stack. -/
def Zipper.advance_focus (z : Zipper α) (dir : SequenceDirection) : Option (Zipper α) :=
  match dir with
  | SequenceDirection.Original =>
      (pop_push z.forward z.backward).map fun fb => ⟨fb.1, fb.2⟩
  | SequenceDirection.Reverse =>
      (pop_push z.backward z.forward).map fun bf => ⟨bf.2, bf.1⟩

/-- Zipper::rotate_stacks: rotate the stack counter to the direction of
motion into the stack matching the direction of motion, if necessary. -/
def Zipper.rotate_stacks (z : Zipper α) (dir : SequenceDirection) : Zipper α :=
  match dir with
  | SequenceDirection.Original => if z.forward.isEmpty then z.reset_start else z
  | SequenceDirection.Reverse => if z.backward.isEmpty then z.reset_end_impl else z

/-- Zipper::circle_step: move the focus one step in the given direction,
rotating back to the start of the sequence at either end. -/
def Zipper.circle_step (z : Zipper α) (dir : SequenceDirection) : Option (Zipper α) :=
  if z.size = 0 then some z
  else
    match dir with
    | SequenceDirection.Original =>
        (z.advance_focus SequenceDirection.Original).map
          fun s => s.rotate_stacks SequenceDirection.Original
    | SequenceDirection.Reverse =>
        (z.rotate_stacks SequenceDirection.Reverse).advance_focus SequenceDirection.Reverse

/-- The try_fold loop of Zipper::refocus, with the range 0..size as fuel:
each iteration steps once in the Original direction, continues while the
new focus exists and fails the predicate, and stops otherwise. -/
def Zipper.refocusAux (p : α → Bool) : Nat → Zipper α → Option (Zipper α)
  | 0, s => some s
  | n + 1, s =>
    match s.circle_step SequenceDirection.Original with
    | none => none
    | some s' =>
      match s'.focus with
      | some t => if !(p t) then Zipper.refocusAux p n s' else some s'
      | none => some s'

/-- Zipper::refocus: skip ahead until the first element satisfying p,
checking each element at most once. -/
def Zipper.refocus (z : Zipper α) (p : α → Bool) : Option (Zipper α) :=
  Zipper.refocusAux p z.size z

/-- Zipper::reset_end: reset_end_impl followed by one Reverse circle_step. -/
def Zipper.reset_end (z : Zipper α) : Option (Zipper α) :=
  z.reset_end_impl.circle_step SequenceDirection.Reverse

/-- The FromIterator impl: fold push_back_and_yield into the forward stack. -/
def from_iter (l : List α) : Zipper α :=
  ⟨l.foldl push_back_and_yield [], []⟩

/-- The ZipperIter struct: a reference to the zipper, the element count,
a cursor of positions already yielded, and a direction. -/
structure ZipperIter (α : Type) where
  zipper : Zipper α
  count : Nat
  cursor : Int
  dir : SequenceDirection
deriving DecidableEq

/-- Zipper::iter, the forward traversal producer. -/
def Zipper.iter (z : Zipper α) : ZipperIter α :=
  ⟨z, z.size, 0, SequenceDirection.Original⟩

/-- Zipper::reverse_iter, the reverse traversal producer. -/
def Zipper.reverse_iter (z : Zipper α) : ZipperIter α :=
  ⟨z, z.size, -1, SequenceDirection.Reverse⟩

/-- Iterator::next for ZipperIter, returning the yielded item and the
updated iterator. none models the usize subtraction underflow panic in
pl_len - (f(cursor) - nl_len + 1); the in-bounds VecDeque::get accesses
return an Option and are modelled by List.get?. -/
def ZipperIter.next (it : ZipperIter α) : Option (Option α × ZipperIter α) :=
  match
    (match it.dir with
     | SequenceDirection.Original =>
         (it.zipper.forward, it.zipper.backward,
          decide (it.cursor < (it.count : Int)),
          fun c : Int => c.toNat)
     | SequenceDirection.Reverse =>
         (it.zipper.backward, it.zipper.forward,
          decide (it.cursor < (it.count : Int) - 1),
          fun c : Int => if c < 0 then (c + (it.count : Int)).toNat else c.toNat)
     : List α × List α × Bool × (Int → Nat))
  with
  | (nl, pl, cond, f) =>
    if cond then
      let i := f it.cursor
      if i < nl.length then
        some (nl.get? i, { it with cursor := it.cursor + 1 })
      else if pl.length < i - nl.length + 1 then
        none
      else
        some (pl.get? (pl.length - (i - nl.length + 1)), { it with cursor := it.cursor + 1 })
    else
      some (none, it)

/-- Drive a ZipperIter for n calls to next, collecting the yielded items;
none propagates a modelled panic. -/
def iterOut : ZipperIter α → Nat → Option (List (Option α))
  | _, 0 => some []
  | it, n + 1 =>
    match it.next with
    | none => none
    | some (o, it') => (iterOut it' n).map fun outs => o :: outs

/-- The original sequence represented by a zipper state: backward holds the
elements before the focus in reverse order, forward the rest in order. -/
def origSeq (z : Zipper α) : List α := z.backward.reverse ++ z.forward

/-- The ring order starting at the focus: forward, then the passed elements
in original order. This is the order the forward traversal yields. -/
def ringOrder (z : Zipper α) : List α := z.forward ++ z.backward.reverse

/-- The focus invariant: the forward stack is only empty when the whole
zipper is empty. -/
def Inv (z : Zipper α) : Prop := z.forward = [] → z.backward = []

/-- The index of the focused element within the original sequence. -/
def pos (z : Zipper α) : Nat := z.backward.length

/-- Rotate a list one position to the left (head moves to the back). -/
def rot1 : List α → List α
  | [] => []
  | a :: rest => rest ++ [a]

/-- The first element of l satisfying p, or the default d when none does. -/
def firstMatchOr (p : α → Bool) (l : List α) (d : Option α) : Option α :=
  match l.find? p with
  | some a => some a
  | none => d

/-- One public zipper operation, for stating reachability invariants. -/
inductive Op (α : Type) : Type where
  | step : SequenceDirection → Op α
  | refocusOp : (α → Bool) → Op α
  | resetStart : Op α
  | resetEnd : Op α

/-- Apply one public operation to a zipper. -/
def applyOp (z : Zipper α) : Op α → Option (Zipper α)
  | Op.step d => z.circle_step d
  | Op.refocusOp p => z.refocus p
  | Op.resetStart => some z.reset_start
  | Op.resetEnd => z.reset_end

/-- Apply a list of public operations in order. -/
def applyOps (z : Zipper α) : List (Op α) → Option (Zipper α)
  | [] => some z
  | op :: ops => (applyOp z op).bind fun z' => applyOps z' ops

/-- The iterator state of a traversal of z in direction dir that has
already yielded k items. -/
def mkIter (z : Zipper α) (dir : SequenceDirection) (k : Nat) : ZipperIter α :=
  ⟨z, z.size,
   match dir with
   | SequenceDirection.Original => (k : Int)
   | SequenceDirection.Reverse => (k : Int) - 1,
   dir⟩

theorem foldl_push_and_yield (pl nl : List α) :
    pl.foldl push_and_yield nl = pl.reverse ++ nl := by
  induction pl generalizing nl with
  | nil => rfl
  | cons a t ih =>
    simp only [List.foldl_cons, push_and_yield, ih, List.reverse_cons, List.append_assoc,
      List.singleton_append]

theorem foldl_push_back_and_yield (l acc : List α) :
    l.foldl push_back_and_yield acc = acc ++ l := by
  induction l generalizing acc with
  | nil => simp
  | cons a t ih => simp [push_back_and_yield, ih]

theorem from_iter_eq (l : List α) : from_iter l = ⟨l, []⟩ := by
  simp [from_iter, foldl_push_back_and_yield]

theorem reset_start_eq (z : Zipper α) :
    z.reset_start = ⟨z.backward.reverse ++ z.forward, []⟩ := by
  simp [Zipper.reset_start, reset, foldl_push_and_yield]

theorem reset_end_impl_eq (z : Zipper α) :
    z.reset_end_impl = ⟨[], z.forward.reverse ++ z.backward⟩ := by
  simp [Zipper.reset_end_impl, reset, foldl_push_and_yield]

theorem origSeq_length (z : Zipper α) : (origSeq z).length = z.size := by
  simp [origSeq, Zipper.size, Nat.add_comm]

theorem ringOrder_length (z : Zipper α) : (ringOrder z).length = z.size := by
  simp [ringOrder, Zipper.size]

theorem rot1_length (l : List α) : (rot1 l).length = l.length := by
  cases l with
  | nil => rfl
  | cons a rest => simp [rot1]

theorem rot1_perm (l : List α) : List.Perm (rot1 l) l := by
  cases l with
  | nil => exact List.Perm.refl _
  | cons a rest => exact List.perm_append_singleton a rest

theorem ringOrder_perm_origSeq (z : Zipper α) : List.Perm (ringOrder z) (origSeq z) := by
  exact List.perm_append_comm

theorem get?_zero_eq_head? (l : List α) : l.get? 0 = l.head? := by
  cases l <;> rfl

theorem focus_eq_get (z : Zipper α) : z.focus = (origSeq z).get? (pos z) := by
  have h : z.backward.length = z.backward.reverse.length := (List.length_reverse _).symm
  rw [Zipper.focus, origSeq, pos, h,
    List.get?_append_right (Nat.le_refl _), Nat.sub_self, get?_zero_eq_head?]

theorem forward_ne_nil (z : Zipper α) (hz : Inv z) (hs : z.size ≠ 0) : z.forward ≠ [] := by
  intro hf
  exact hs (by simp [Zipper.size, hf, hz hf])

theorem pos_lt_size (z : Zipper α) (hz : Inv z) (hs : z.size ≠ 0) : pos z < z.size := by
  have hf := forward_ne_nil z hz hs
  have h1 : z.forward.length ≠ 0 := fun h => hf (List.length_eq_zero.mp h)
  simp only [pos, Zipper.size]
  omega

theorem zipper_ext (z₁ z₂ : Zipper α) (hs : origSeq z₁ = origSeq z₂) (hp : pos z₁ = pos z₂) :
    z₁ = z₂ := by
  have hf : ∀ z : Zipper α, z.forward = (origSeq z).drop (pos z) := by
    intro z
    rw [origSeq, pos, show z.backward.length = z.backward.reverse.length from
      (List.length_reverse _).symm, List.drop_left]
  have hb : ∀ z : Zipper α, z.backward = ((origSeq z).take (pos z)).reverse := by
    intro z
    rw [origSeq, pos, show z.backward.length = z.backward.reverse.length from
      (List.length_reverse _).symm, List.take_left, List.reverse_reverse]
  calc z₁ = ⟨(origSeq z₁).drop (pos z₁), ((origSeq z₁).take (pos z₁)).reverse⟩ := by
        rw [← hf z₁, ← hb z₁]
    _ = ⟨(origSeq z₂).drop (pos z₂), ((origSeq z₂).take (pos z₂)).reverse⟩ := by
        rw [hs, hp]
    _ = z₂ := by rw [← hf z₂, ← hb z₂]

theorem size_eq_zero_iff (z : Zipper α) : z.size = 0 ↔ z = ⟨[], []⟩ := by
  constructor
  · intro h
    have h' : z.forward.length + z.backward.length = 0 := h
    have hf : z.forward = [] := List.length_eq_zero.mp (by omega)
    have hb : z.backward = [] := List.length_eq_zero.mp (by omega)
    calc z = ⟨z.forward, z.backward⟩ := rfl
      _ = ⟨[], []⟩ := by rw [hf, hb]
  · intro h; subst h; rfl

theorem circle_step_original_spec (z : Zipper α) (h : z.forward ≠ []) :
    ∃ z', z.circle_step SequenceDirection.Original = some z' ∧
      origSeq z' = origSeq z ∧ pos z' = (pos z + 1) % z.size ∧
      Inv z' ∧ z'.size = z.size ∧ ringOrder z' = rot1 (ringOrder z) := by
  obtain ⟨a, rest, hfa⟩ := List.exists_cons_of_ne_nil h
  have hsz : z.size ≠ 0 := by simp [Zipper.size, hfa]
  cases rest with
  | nil =>
    refine ⟨⟨z.backward.reverse ++ [a], []⟩, ?_, ?_, ?_, ?_, ?_, ?_⟩
    · simp [Zipper.circle_step, hsz, Zipper.advance_focus, pop_push, hfa,
        Zipper.rotate_stacks, reset_start_eq]
    · simp [origSeq, hfa]
    · simp [pos, Zipper.size, hfa, Nat.add_comm, Nat.mod_self]
    · intro _; rfl
    · simp [Zipper.size, hfa]; omega
    · simp [ringOrder, hfa, rot1]
  | cons b bs =>
    refine ⟨⟨b :: bs, a :: z.backward⟩, ?_, ?_, ?_, ?_, ?_, ?_⟩
    · simp [Zipper.circle_step, hsz, Zipper.advance_focus, pop_push, hfa,
        Zipper.rotate_stacks]
    · simp [origSeq, hfa]
    · have hlt : z.backward.length + 1 < z.size := by
        simp [Zipper.size, hfa]; omega
      show (a :: z.backward).length = (pos z + 1) % z.size
      simp only [List.length_cons, pos]
      rw [Nat.mod_eq_of_lt hlt]
    · intro hx; exact absurd hx (by simp)
    · simp [Zipper.size, hfa]; omega
    · simp [ringOrder, hfa, rot1]

theorem circle_step_reverse_spec (z : Zipper α) (hs : z.size ≠ 0) :
    ∃ z', z.circle_step SequenceDirection.Reverse = some z' ∧
      origSeq z' = origSeq z ∧ pos z' = (pos z + z.size - 1) % z.size ∧
      Inv z' ∧ z'.size = z.size := by
  cases hb : z.backward with
  | nil =>
    have hf : z.forward ≠ [] := by
      intro hf; exact hs (by simp [Zipper.size, hf, hb])
    obtain ⟨c, cr, hcr⟩ : ∃ c cr, z.forward.reverse = c :: cr := by
      rcases hrev : z.forward.reverse with _ | ⟨c, cr⟩
      · exact absurd (by simpa using congrArg List.reverse hrev) hf
      · exact ⟨c, cr, rfl⟩
    have hlen : z.forward.length = cr.length + 1 := by
      have := congrArg List.length hcr
      simpa using this
    refine ⟨⟨[c], cr⟩, ?_, ?_, ?_, ?_, ?_⟩
    · simp [Zipper.circle_step, hs, Zipper.rotate_stacks, hb, reset_end_impl_eq,
        Zipper.advance_focus, pop_push, hcr]
    · have : cr.reverse ++ [c] = z.forward := by
        have := congrArg List.reverse hcr
        simpa using this.symm
      simp [origSeq, hb, this]
    · have hsz : z.size = cr.length + 1 := by
        simp [Zipper.size, hb, hlen]
      show cr.length = (pos z + z.size - 1) % z.size
      have hp0 : pos z = 0 := by simp [pos, hb]
      have h4 : pos z + z.size - 1 = cr.length := by omega
      rw [h4, Nat.mod_eq_of_lt (by omega)]
    · intro hx; exact absurd hx (by simp)
    · show 1 + cr.length = z.size
      simp only [Zipper.size, hb, List.length_nil, hlen]
      omega
  | cons b bt =>
    refine ⟨⟨b :: z.forward, bt⟩, ?_, ?_, ?_, ?_, ?_⟩
    · simp [Zipper.circle_step, hs, Zipper.rotate_stacks, hb,
        Zipper.advance_focus, pop_push]
    · simp [origSeq, hb]
    · have h1 : pos z = bt.length + 1 := by simp [pos, hb]
      have h2 : z.size = z.forward.length + (bt.length + 1) := by simp [Zipper.size, hb]
      have h3 : pos z + z.size - 1 = bt.length + z.size := by omega
      show bt.length = (pos z + z.size - 1) % z.size
      rw [h3, Nat.add_mod_right, Nat.mod_eq_of_lt (by omega)]
    · intro hx; exact absurd hx (by simp)
    · simp [Zipper.size, hb]; omega

theorem reset_end_spec (z : Zipper α) (h : z.size ≠ 0) :
    ∃ b bt, z.forward.reverse ++ z.backward = b :: bt ∧ z.reset_end = some ⟨[b], bt⟩ := by
  obtain ⟨b, bt, hbt⟩ : ∃ b bt, z.forward.reverse ++ z.backward = b :: bt := by
    rcases hc : z.forward.reverse ++ z.backward with _ | ⟨b, bt⟩
    · exfalso
      apply h
      have h1 := congrArg List.length hc
      rw [List.length_append, List.length_reverse] at h1
      simp only [List.length_nil] at h1
      show z.forward.length + z.backward.length = 0
      omega
    · exact ⟨b, bt, rfl⟩
  refine ⟨b, bt, hbt, ?_⟩
  have h1 : z.reset_end_impl = ⟨[], b :: bt⟩ := by rw [reset_end_impl_eq, hbt]
  rw [Zipper.reset_end, h1]
  simp [Zipper.circle_step, Zipper.size, Zipper.rotate_stacks, Zipper.advance_focus, pop_push]

theorem mod_add_one_sub_one (i n : Nat) (h : i < n) :
    ((i + 1) % n + n - 1) % n = i := by
  rcases Nat.lt_or_ge (i + 1) n with h' | h'
  · rw [Nat.mod_eq_of_lt h']
    have : i + 1 + n - 1 = i + n := by omega
    rw [this, Nat.add_mod_right, Nat.mod_eq_of_lt h]
  · have hi : i + 1 = n := by omega
    rw [hi, Nat.mod_self]
    have : 0 + n - 1 = i := by omega
    rw [this, Nat.mod_eq_of_lt h]

theorem mod_sub_one_add_one (i n : Nat) (h : i < n) :
    ((i + n - 1) % n + 1) % n = i := by
  rcases Nat.eq_zero_or_pos i with hi | hi
  · subst hi
    have h1 : 0 + n - 1 = n - 1 := by omega
    rw [h1, Nat.mod_eq_of_lt (show n - 1 < n by omega)]
    have h2 : n - 1 + 1 = n := by omega
    rw [h2, Nat.mod_self]
  · have h1 : i + n - 1 = (i - 1) + n := by omega
    rw [h1, Nat.add_mod_right, Nat.mod_eq_of_lt (show i - 1 < n by omega)]
    have h2 : i - 1 + 1 = i := by omega
    rw [h2, Nat.mod_eq_of_lt h]

theorem focus_eq_ring_head (z : Zipper α) (hz : Inv z) :
    z.focus = (ringOrder z).head? := by
  cases hf : z.forward with
  | nil => simp [Zipper.focus, ringOrder, hf, hz hf]
  | cons a rest => simp [Zipper.focus, ringOrder, hf]

theorem refocusAux_sound (p : α → Bool) :
    ∀ (fuel : Nat) (z : Zipper α), Inv z →
      ∃ z', Zipper.refocusAux p fuel z = some z' ∧ Inv z' ∧ origSeq z' = origSeq z := by
  intro fuel
  induction fuel with
  | zero => intro z hz; exact ⟨z, rfl, hz, rfl⟩
  | succ n ih =>
    intro z hz
    by_cases hs : z.size = 0
    · have hz0 : z = ⟨[], []⟩ := (size_eq_zero_iff z).mp hs
      subst hz0
      exact ⟨⟨[], []⟩, rfl, hz, rfl⟩
    · obtain ⟨z₁, hstep, hseq, hpos, hz₁, hsz₁⟩ :=
        circle_step_original_spec z (forward_ne_nil z hz hs)
      obtain ⟨t, ht⟩ : ∃ t, z₁.focus = some t := by
        have h1 : pos z₁ < z₁.size := pos_lt_size z₁ hz₁ (by omega)
        rw [focus_eq_get]
        have h2 : pos z₁ < (origSeq z₁).length := by rw [origSeq_length]; exact h1
        exact ⟨_, List.get?_eq_get h2⟩
      rcases hp : p t with _ | _
      · obtain ⟨z', h1, h2, h3⟩ := ih z₁ hz₁
        refine ⟨z', ?_, h2, by rw [h3, hseq]⟩
        simp [Zipper.refocusAux, hstep, ht, hp, h1]
      · refine ⟨z₁, ?_, hz₁, hseq⟩
        simp [Zipper.refocusAux, hstep, ht, hp]

theorem refocus_sound (p : α → Bool) (z : Zipper α) (hz : Inv z) :
    ∃ z', z.refocus p = some z' ∧ Inv z' ∧ origSeq z' = origSeq z :=
  refocusAux_sound p z.size z hz

theorem refocusAux_nomatch (p : α → Bool) :
    ∀ (fuel : Nat) (z : Zipper α), Inv z → z.size ≠ 0 →
      (∀ a ∈ origSeq z, p a = false) →
      ∃ z', Zipper.refocusAux p fuel z = some z' ∧ Inv z' ∧ origSeq z' = origSeq z ∧
        z'.size = z.size ∧ pos z' = (pos z + fuel) % z.size := by
  intro fuel
  induction fuel with
  | zero =>
    intro z hz hs _
    refine ⟨z, rfl, hz, rfl, rfl, ?_⟩
    rw [Nat.add_zero, Nat.mod_eq_of_lt (pos_lt_size z hz hs)]
  | succ n ih =>
    intro z hz hs hnm
    obtain ⟨z₁, hstep, hseq, hpos, hz₁, hsz₁, hring₁⟩ :=
      circle_step_original_spec z (forward_ne_nil z hz hs)
    have hs₁ : z₁.size ≠ 0 := by omega
    have h2 : pos z₁ < (origSeq z₁).length := by
      rw [origSeq_length]; exact pos_lt_size z₁ hz₁ hs₁
    have hfoc₁ : z₁.focus = some ((origSeq z₁).get ⟨pos z₁, h2⟩) := by
      rw [focus_eq_get]; exact List.get?_eq_get h2
    have hpt : p ((origSeq z₁).get ⟨pos z₁, h2⟩) = false := by
      apply hnm
      rw [← hseq]
      exact List.get_mem _ _ _
    obtain ⟨z', h1, hz', hseq', hsz', hpos'⟩ := ih z₁ hz₁ hs₁ (by rw [hseq]; exact hnm)
    simp only [List.get_eq_getElem] at hpt hfoc₁
    refine ⟨z', ?_, hz', by rw [hseq', hseq], by omega, ?_⟩
    · simp [Zipper.refocusAux, hstep, hfoc₁, hpt, h1]
    · rw [hpos', hsz₁, hpos, Nat.mod_add_mod]
      congr 1
      omega

theorem refocus_nomatch_id (p : α → Bool) (z : Zipper α) (hz : Inv z)
    (hnm : ∀ a ∈ origSeq z, p a = false) : z.refocus p = some z := by
  by_cases hs : z.size = 0
  · rw [Zipper.refocus, hs]
    rfl
  · obtain ⟨z', h1, _, hseq', _, hpos'⟩ := refocusAux_nomatch p z.size z hz hs hnm
    have hp : pos z' = pos z := by
      rw [hpos', Nat.add_mod_right, Nat.mod_eq_of_lt (pos_lt_size z hz hs)]
    rw [Zipper.refocus, h1, zipper_ext z' z hseq' hp]

theorem refocusAux_find (p : α → Bool) :
    ∀ (fuel : Nat) (z : Zipper α), Inv z → z.size ≠ 0 → fuel ≤ z.size →
      ∃ z', Zipper.refocusAux p fuel z = some z' ∧ Inv z' ∧ origSeq z' = origSeq z ∧
        z'.size = z.size ∧
        z'.focus = firstMatchOr p ((rot1 (ringOrder z)).take fuel)
          ((origSeq z).get? ((pos z + fuel) % z.size)) := by
  intro fuel
  induction fuel with
  | zero =>
    intro z hz hs _
    refine ⟨z, rfl, hz, rfl, rfl, ?_⟩
    simp only [List.take_zero, firstMatchOr, List.find?_nil]
    rw [focus_eq_get]
    congr 1
    rw [Nat.add_zero, Nat.mod_eq_of_lt (pos_lt_size z hz hs)]
  | succ n ih =>
    intro z hz hs hle
    obtain ⟨z₁, hstep, hseq, hpos, hz₁, hsz₁, hring₁⟩ :=
      circle_step_original_spec z (forward_ne_nil z hz hs)
    have hRlen : (rot1 (ringOrder z)).length = z.size := by
      rw [rot1_length, ringOrder_length]
    obtain ⟨t, ts, hts⟩ : ∃ t ts, rot1 (ringOrder z) = t :: ts := by
      apply List.exists_cons_of_ne_nil
      intro hnil
      rw [hnil] at hRlen
      exact hs (by simpa using hRlen.symm)
    have hring₁' : ringOrder z₁ = t :: ts := by rw [hring₁, hts]
    have hfoc₁ : z₁.focus = some t := by
      rw [focus_eq_ring_head z₁ hz₁, hring₁']
      rfl
    have hts_len : ts.length = z.size - 1 := by
      have h := hRlen
      rw [hts] at h
      simp at h
      omega
    have e2 : (rot1 (ringOrder z)).take (n + 1) = t :: ts.take n := by
      rw [hts, List.take_succ_cons]
    cases hp : p t with
    | true =>
      refine ⟨z₁, ?_, hz₁, hseq, hsz₁, ?_⟩
      · simp [Zipper.refocusAux, hstep, hfoc₁, hp]
      · rw [hfoc₁, e2]
        simp [firstMatchOr, List.find?_cons, hp]
    | false =>
      obtain ⟨z', h1, hz', hseq', hsz', hfoc'⟩ :=
        ih z₁ hz₁ (by omega) (by omega)
      have e1 : (rot1 (ringOrder z₁)).take n = ts.take n := by
        rw [hring₁', show rot1 (t :: ts) = ts ++ [t] from rfl]
        exact List.take_append_of_le_length (by omega)
      have e3 : firstMatchOr p (t :: ts.take n) ((origSeq z).get? ((pos z + (n + 1)) % z.size))
          = firstMatchOr p (ts.take n) ((origSeq z).get? ((pos z + (n + 1)) % z.size)) := by
        simp [firstMatchOr, List.find?_cons, hp]
      have e4 : (origSeq z₁).get? ((pos z₁ + n) % z₁.size)
          = (origSeq z).get? ((pos z + (n + 1)) % z.size) := by
        rw [hseq, hsz₁, hpos, Nat.mod_add_mod]
        congr 2
        omega
      refine ⟨z', ?_, hz', by rw [hseq', hseq], by omega, ?_⟩
      · simp [Zipper.refocusAux, hstep, hfoc₁, hp, h1]
      · rw [e2, e3, ← e4, ← e1, hfoc']

theorem reset_start_sound (z : Zipper α) :
    Inv z.reset_start ∧ origSeq z.reset_start = origSeq z := by
  rw [reset_start_eq]
  exact ⟨fun _ => rfl, by simp [origSeq]⟩

theorem reset_end_sound (z : Zipper α) :
    ∃ z', z.reset_end = some z' ∧ Inv z' ∧ origSeq z' = origSeq z := by
  by_cases hs : z.size = 0
  · have hz0 := (size_eq_zero_iff z).mp hs
    refine ⟨z, ?_, ?_, rfl⟩
    · rw [hz0]; rfl
    · rw [hz0]; intro _; rfl
  · obtain ⟨b, bt, hbt, hre⟩ := reset_end_spec z hs
    refine ⟨⟨[b], bt⟩, hre, fun hx => absurd hx (by simp), ?_⟩
    have h2 : z.backward.reverse ++ z.forward = bt.reverse ++ [b] := by
      have h3 := congrArg List.reverse hbt
      simpa using h3
    show bt.reverse ++ [b] = z.backward.reverse ++ z.forward
    exact h2.symm

theorem applyOp_sound (z : Zipper α) (hz : Inv z) (op : Op α) :
    ∃ z', applyOp z op = some z' ∧ Inv z' ∧ origSeq z' = origSeq z := by
  cases op with
  | step d =>
    by_cases hs : z.size = 0
    · refine ⟨z, ?_, hz, rfl⟩
      simp [applyOp, Zipper.circle_step, hs]
    · cases d with
      | Original =>
        obtain ⟨z', h1, h2, _, h4, _, _⟩ :=
          circle_step_original_spec z (forward_ne_nil z hz hs)
        exact ⟨z', h1, h4, h2⟩
      | Reverse =>
        obtain ⟨z', h1, h2, _, h4, _⟩ := circle_step_reverse_spec z hs
        exact ⟨z', h1, h4, h2⟩
  | refocusOp p => exact refocus_sound p z hz
  | resetStart =>
    obtain ⟨h1, h2⟩ := reset_start_sound z
    exact ⟨z.reset_start, rfl, h1, h2⟩
  | resetEnd => exact reset_end_sound z

theorem applyOps_sound :
    ∀ (ops : List (Op α)) (z : Zipper α), Inv z →
      ∃ z', applyOps z ops = some z' ∧ Inv z' ∧ origSeq z' = origSeq z := by
  intro ops
  induction ops with
  | nil => intro z hz; exact ⟨z, rfl, hz, rfl⟩
  | cons op ops ih =>
    intro z hz
    obtain ⟨z₁, h1, h2, h3⟩ := applyOp_sound z hz op
    obtain ⟨z', h4, h5, h6⟩ := ih z₁ h2
    refine ⟨z', ?_, h5, by rw [h6, h3]⟩
    simp [applyOps, h1, h4]

theorem next_exhausted (z : Zipper α) (dir : SequenceDirection) (k : Nat) (hk : z.size ≤ k) :
    (mkIter z dir k).next = some (none, mkIter z dir k) := by
  cases dir with
  | Original =>
    have hc : decide ((k : Int) < (z.size : Int)) = false :=
      decide_eq_false (by omega)
    simp [ZipperIter.next, mkIter, hc]
    intro h
    exact absurd h (by omega)
  | Reverse =>
    have hc : decide ((k : Int) - 1 < (z.size : Int) - 1) = false :=
      decide_eq_false (by omega)
    simp [ZipperIter.next, mkIter, hc]
    intro h
    exact absurd h (by omega)

theorem next_yield (z : Zipper α) (dir : SequenceDirection) (k : Nat) (hk : k < z.size) :
    ∃ a, (mkIter z dir k).next = some (some a, mkIter z dir (k + 1)) := by
  have hsz : z.size = z.forward.length + z.backward.length := rfl
  cases dir with
  | Original =>
    have hc : decide ((k : Int) < (z.size : Int)) = true := decide_eq_true (by omega)
    by_cases h1 : k < z.forward.length
    · refine ⟨z.forward.get ⟨k, h1⟩, ?_⟩
      simp [ZipperIter.next, mkIter, hc, h1, hk, List.get?_eq_get h1]
    · have h2 : ¬ (z.backward.length < k - z.forward.length + 1) := by omega
      have h3 : z.backward.length - (k - z.forward.length + 1) < z.backward.length := by omega
      refine ⟨z.backward.get ⟨_, h3⟩, ?_⟩
      simp [ZipperIter.next, mkIter, hc, h1, h2, hk, List.get?_eq_get h3]
  | Reverse =>
    have hc : decide ((k : Int) - 1 < (z.size : Int) - 1) = true := decide_eq_true (by omega)
    by_cases hk0 : k = 0
    · subst hk0
      have hi : ((-1 : Int) + (z.size : Int)).toNat = z.size - 1 := by omega
      by_cases h1 : z.size - 1 < z.backward.length
      · refine ⟨z.backward.get ⟨z.size - 1, h1⟩, ?_⟩
        simp [ZipperIter.next, mkIter, hc, hi, h1, hk, List.get?_eq_get h1]
      · have h2 : ¬ (z.forward.length < (z.size - 1) - z.backward.length + 1) := by omega
        have h3 : z.forward.length - ((z.size - 1) - z.backward.length + 1) < z.forward.length := by
          omega
        refine ⟨z.forward.get ⟨_, h3⟩, ?_⟩
        simp [ZipperIter.next, mkIter, hc, hi, h1, h2, hk, List.get?_eq_get h3]
    · have hi : ((k : Int) - 1).toNat = k - 1 := by omega
      by_cases h1 : k - 1 < z.backward.length
      · refine ⟨z.backward.get ⟨k - 1, h1⟩, ?_⟩
        simp [ZipperIter.next, mkIter, hc, hk0, hi, h1, hk, List.get?_eq_get h1]
      · have h2 : ¬ (z.forward.length < (k - 1) - z.backward.length + 1) := by omega
        have h3 : z.forward.length - ((k - 1) - z.backward.length + 1) < z.forward.length := by
          omega
        refine ⟨z.forward.get ⟨_, h3⟩, ?_⟩
        simp [ZipperIter.next, mkIter, hc, hk0, hi, h1, h2, hk, List.get?_eq_get h3]

theorem iterOut_spec (z : Zipper α) (dir : SequenceDirection) :
    ∀ (n k : Nat), ∃ outs : List (Option α),
      iterOut (mkIter z dir k) n = some outs ∧ outs.length = n ∧
      ∀ j, j < n → ((outs.getD j none).isSome = true ↔ k + j < z.size) := by
  intro n
  induction n with
  | zero =>
    intro k
    exact ⟨[], rfl, rfl, fun j hj => absurd hj (by omega)⟩
  | succ n ih =>
    intro k
    by_cases hk : k < z.size
    · obtain ⟨a, ha⟩ := next_yield z dir k hk
      obtain ⟨outs, h1, h2, h3⟩ := ih (k + 1)
      refine ⟨some a :: outs, ?_, by simp [h2], ?_⟩
      · simp [iterOut, ha, h1]
      · intro j hj
        cases j with
        | zero => simp; omega
        | succ j =>
          have h4 := h3 j (by omega)
          rw [List.getD_cons_succ, h4]
          omega
    · have ha := next_exhausted z dir k (by omega)
      obtain ⟨outs, h1, h2, h3⟩ := ih k
      refine ⟨none :: outs, ?_, by simp [h2], ?_⟩
      · simp [iterOut, ha, h1]
      · intro j hj
        cases j with
        | zero => simp; omega
        | succ j =>
          have h4 := h3 j (by omega)
          rw [List.getD_cons_succ, h4]
          omega

/-- C1: for a zipper satisfying the focus invariant, with n = size at least 1
and focus at position i = pos z of the original sequence, circle_step in the
Original direction focuses the element at position (i + 1) % n, and in the
Reverse direction the element at position (i + n - 1) % n, wrapping at both
ends of the sequence. -/
theorem c1_circle_step_mod (α : Type) (z : Zipper α) (hz : Inv z) (hs : 1 ≤ z.size) :
    (∃ z', z.circle_step SequenceDirection.Original = some z' ∧
      origSeq z' = origSeq z ∧ pos z' = (pos z + 1) % z.size ∧
      z'.focus = (origSeq z).get? ((pos z + 1) % z.size)) ∧
    (∃ z', z.circle_step SequenceDirection.Reverse = some z' ∧
      origSeq z' = origSeq z ∧ pos z' = (pos z + z.size - 1) % z.size ∧
      z'.focus = (origSeq z).get? ((pos z + z.size - 1) % z.size)) := by
  have hs0 : z.size ≠ 0 := by omega
  constructor
  · obtain ⟨z', h1, h2, h3, _, _, _⟩ := circle_step_original_spec z (forward_ne_nil z hz hs0)
    refine ⟨z', h1, h2, h3, ?_⟩
    rw [focus_eq_get, h2, h3]
  · obtain ⟨z', h1, h2, h3, _, _⟩ := circle_step_reverse_spec z hs0
    refine ⟨z', h1, h2, h3, ?_⟩
    rw [focus_eq_get, h2, h3]

/-- Witness for C1: stepping the fresh zipper over [0, 1, 2] forward focuses
the element at position 1, and stepping it in reverse wraps to position 2. -/
theorem c1_circle_step_mod_witness :
    (∃ z', Zipper.circle_step (Zipper.mk [0, 1, 2] [] : Zipper Nat)
        SequenceDirection.Original = some z' ∧
      origSeq z' = [0, 1, 2] ∧ pos z' = 1 ∧ z'.focus = some 1) ∧
    (∃ z', Zipper.circle_step (Zipper.mk [0, 1, 2] [] : Zipper Nat)
        SequenceDirection.Reverse = some z' ∧
      origSeq z' = [0, 1, 2] ∧ pos z' = 2 ∧ z'.focus = some 2) :=
  c1_circle_step_mod Nat ⟨[0, 1, 2], []⟩ (by simp [Inv]) (by decide)

/-- C2: every zipper reachable from a sequence by public operations keeps a
nonempty forward partition whenever its size is nonzero, so focus returns an
element; moreover every such operation sequence completes without a modelled
panic. -/
theorem c2_reachable_focus (α : Type) (seq : List α) (ops : List (Op α)) :
    ∃ z', applyOps (from_iter seq) ops = some z' ∧
      (z'.size ≠ 0 → z'.forward ≠ [] ∧ ∃ a, z'.focus = some a) := by
  have hInv : Inv (from_iter seq) := by
    rw [from_iter_eq]
    intro _
    rfl
  obtain ⟨z', h1, h2, _⟩ := applyOps_sound ops (from_iter seq) hInv
  refine ⟨z', h1, fun hs => ?_⟩
  have hf := forward_ne_nil z' h2 hs
  refine ⟨hf, ?_⟩
  rcases hfa : z'.forward with _ | ⟨a, rest⟩
  · exact absurd hfa hf
  · exact ⟨a, by simp [Zipper.focus, hfa]⟩

/-- C3 as stated is false: after one forward step on the zipper built from
[0, 1], forward ++ reverse(backward) is [1, 0], not the original [0, 1]. -/
theorem c3_counterexample :
    applyOps (from_iter [0, 1]) [Op.step SequenceDirection.Original]
        = some (Zipper.mk [1] [0] : Zipper Nat) ∧
      (Zipper.mk [1] [0] : Zipper Nat).forward
          ++ (Zipper.mk [1] [0] : Zipper Nat).backward.reverse ≠ [0, 1] := by
  decide

/-- C3 amended: concatenating reverse(backward) followed by forward (rather
than forward followed by reverse(backward)) reproduces the original sequence
after any sequence of public operations. -/
theorem c3_amended_order_invariant (α : Type) (seq : List α) (ops : List (Op α)) :
    ∃ z', applyOps (from_iter seq) ops = some z' ∧
      z'.backward.reverse ++ z'.forward = seq := by
  have hInv : Inv (from_iter seq) := by
    rw [from_iter_eq]
    intro _
    rfl
  obtain ⟨z', h1, _, h3⟩ := applyOps_sound ops (from_iter seq) hInv
  refine ⟨z', h1, ?_⟩
  have h4 : origSeq (from_iter seq) = seq := by
    rw [from_iter_eq]
    simp [origSeq]
  rw [show z'.backward.reverse ++ z'.forward = origSeq z' from rfl, h3, h4]

/-- C4: refocus with a predicate satisfied by no element terminates after one
lap of at most size steps (its fuel is the size) and returns the zipper
unchanged, hence with the focus it had before the call; in particular an
empty zipper is returned unchanged immediately. -/
theorem c4_refocus_nomatch (α : Type) (z : Zipper α) (p : α → Bool) (hz : Inv z)
    (hnm : ∀ a ∈ origSeq z, p a = false) : z.refocus p = some z :=
  refocus_nomatch_id p z hz hnm

/-- Witness for C4: a never-true predicate leaves the zipper over [0, 1, 2]
unchanged. -/
theorem c4_refocus_nomatch_witness :
    Zipper.refocus (Zipper.mk [0, 1, 2] [] : Zipper Nat) (fun _ => false)
      = some (Zipper.mk [0, 1, 2] []) :=
  c4_refocus_nomatch Nat ⟨[0, 1, 2], []⟩ (fun _ => false) (by simp [Inv])
    (by intro a _; rfl)

/-- C5: on a nonempty zipper satisfying the focus invariant, refocus p
terminates within the size-bounded lap and focuses the first element
satisfying p strictly after the old focus in ring order, with the starting
focus itself considered last (it is the default when nothing matches); when
exactly one element satisfies p, that element ends up focused. -/
theorem c5_refocus_first_match (α : Type) (z : Zipper α) (p : α → Bool)
    (hz : Inv z) (hs : z.size ≠ 0) :
    ∃ z', z.refocus p = some z' ∧ origSeq z' = origSeq z ∧
      z'.focus = firstMatchOr p (rot1 (ringOrder z)) z.focus ∧
      ((origSeq z).countP p = 1 → ∃ a, p a = true ∧ z'.focus = some a) := by
  obtain ⟨z', h1, _, h3, _, h5⟩ := refocusAux_find p z.size z hz hs (le_refl _)
  have htake : (rot1 (ringOrder z)).take z.size = rot1 (ringOrder z) := by
    have hl : (rot1 (ringOrder z)).length = z.size := by
      rw [rot1_length, ringOrder_length]
    rw [← hl, List.take_length]
  have hdef : (origSeq z).get? ((pos z + z.size) % z.size) = z.focus := by
    rw [Nat.add_mod_right, Nat.mod_eq_of_lt (pos_lt_size z hz hs), ← focus_eq_get]
  rw [htake, hdef] at h5
  refine ⟨z', h1, h3, h5, ?_⟩
  intro hcount
  have hperm : List.Perm (rot1 (ringOrder z)) (origSeq z) :=
    (rot1_perm _).trans (ringOrder_perm_origSeq z)
  have hcount' : (rot1 (ringOrder z)).countP p = 1 := by
    rw [hperm.countP_eq]
    exact hcount
  have hex : ∃ x ∈ rot1 (ringOrder z), p x = true := by
    rw [← List.countP_pos]
    omega
  obtain ⟨a, hfind⟩ : ∃ a, (rot1 (ringOrder z)).find? p = some a := by
    rcases hf : (rot1 (ringOrder z)).find? p with _ | a
    · exfalso
      obtain ⟨x, hx, hpx⟩ := hex
      exact (List.find?_eq_none.mp hf x hx) hpx
    · exact ⟨a, rfl⟩
  refine ⟨a, List.find?_some hfind, ?_⟩
  rw [h5]
  simp [firstMatchOr, hfind]

/-- Witness for C5: with exactly the element 2 matching, refocus on the
zipper over [0, 1, 2] finds and focuses 2. -/
theorem c5_refocus_first_match_witness :
    ∃ z', Zipper.refocus (Zipper.mk [0, 1, 2] [] : Zipper Nat) (fun t => t == 2)
        = some z' ∧
      origSeq z' = [0, 1, 2] ∧
      z'.focus = firstMatchOr (fun t => t == 2) [1, 2, 0] (some 0) ∧
      (List.countP (fun t => t == 2) [0, 1, 2] = 1 →
        ∃ a, (fun t : Nat => t == 2) a = true ∧ z'.focus = some a) :=
  c5_refocus_first_match Nat ⟨[0, 1, 2], []⟩ (fun t => t == 2) (by simp [Inv]) (by decide)

/-- C6: reset_end alone focuses the last element of the original order on
every nonempty zipper and a second reset_end returns the same state;
reset_start focuses the first element and is idempotent as well. -/
theorem c6_reset_semantics (α : Type) (z : Zipper α) (hs : z.size ≠ 0) :
    (∃ z', z.reset_end = some z' ∧ z'.focus = (origSeq z).getLast? ∧
      z'.reset_end = some z') ∧
    (z.reset_start).focus = (origSeq z).head? ∧
    (z.reset_start).reset_start = z.reset_start := by
  refine ⟨?_, ?_, ?_⟩
  · obtain ⟨b, bt, hbt, hre⟩ := reset_end_spec z hs
    refine ⟨⟨[b], bt⟩, hre, ?_, ?_⟩
    · have h1 : (origSeq z).reverse = z.forward.reverse ++ z.backward := by
        simp [origSeq]
      rw [show (⟨[b], bt⟩ : Zipper α).focus = some b from rfl,
        ← List.head?_reverse, h1, hbt]
      rfl
    · have hs' : (⟨[b], bt⟩ : Zipper α).size ≠ 0 := by
        simp [Zipper.size]
      obtain ⟨b', bt', hbt', hre'⟩ := reset_end_spec ⟨[b], bt⟩ hs'
      have hbt2 : b :: bt = b' :: bt' := hbt'
      injection hbt2 with e1 e2
      subst e1
      subst e2
      exact hre'
  · rw [reset_start_eq]
    rfl
  · rw [reset_start_eq, reset_start_eq]
    simp

/-- Witness for C6: on the zipper over [0, 1, 2], reset_end focuses 2 and is
idempotent, and reset_start focuses 0 and is idempotent. -/
theorem c6_reset_semantics_witness :
    (∃ z', Zipper.reset_end (Zipper.mk [0, 1, 2] [] : Zipper Nat) = some z' ∧
      z'.focus = some 2 ∧ z'.reset_end = some z') ∧
    (Zipper.reset_start (Zipper.mk [0, 1, 2] [] : Zipper Nat)).focus = some 0 ∧
    (Zipper.reset_start (Zipper.mk [0, 1, 2] [] : Zipper Nat)).reset_start
      = Zipper.reset_start (Zipper.mk [0, 1, 2] [] : Zipper Nat) :=
  c6_reset_semantics Nat ⟨[0, 1, 2], []⟩ (by decide)

/-- C7: one forward step followed by one reverse step restores the zipper
state, hence the focus held before the pair, and symmetrically, for every
invariant-satisfying zipper of size at least one, wraparound included. -/
theorem c7_step_inverse (α : Type) (z : Zipper α) (hz : Inv z) (hs : 1 ≤ z.size) :
    (z.circle_step SequenceDirection.Original).bind
        (fun s => s.circle_step SequenceDirection.Reverse) = some z ∧
    (z.circle_step SequenceDirection.Reverse).bind
        (fun s => s.circle_step SequenceDirection.Original) = some z := by
  have hs0 : z.size ≠ 0 := by omega
  have hpz := pos_lt_size z hz hs0
  constructor
  · obtain ⟨z₁, h1, h2, h3, h4, h5, _⟩ :=
      circle_step_original_spec z (forward_ne_nil z hz hs0)
    obtain ⟨z₂, g1, g2, g3, _, _⟩ := circle_step_reverse_spec z₁ (by omega)
    have hpos2 : pos z₂ = pos z := by
      rw [g3, h3, h5]
      exact mod_add_one_sub_one (pos z) z.size hpz
    have hz₂ : z₂ = z := zipper_ext z₂ z (by rw [g2, h2]) hpos2
    rw [h1]
    simpa [hz₂] using g1
  · obtain ⟨z₁, h1, h2, h3, h4, h5⟩ := circle_step_reverse_spec z hs0
    obtain ⟨z₂, g1, g2, g3, _, _, _⟩ :=
      circle_step_original_spec z₁ (forward_ne_nil z₁ h4 (by omega))
    have hpos2 : pos z₂ = pos z := by
      rw [g3, h3, h5]
      exact mod_sub_one_add_one (pos z) z.size hpz
    have hz₂ : z₂ = z := zipper_ext z₂ z (by rw [g2, h2]) hpos2
    rw [h1]
    simpa [hz₂] using g1

/-- Witness for C7: both step pairs restore the zipper over [0, 1], whose
focus sits at the wraparound boundary in both directions. -/
theorem c7_step_inverse_witness :
    (Zipper.circle_step (Zipper.mk [0, 1] [] : Zipper Nat)
        SequenceDirection.Original).bind
        (fun s => s.circle_step SequenceDirection.Reverse) = some (Zipper.mk [0, 1] []) ∧
    (Zipper.circle_step (Zipper.mk [0, 1] [] : Zipper Nat)
        SequenceDirection.Reverse).bind
        (fun s => s.circle_step SequenceDirection.Original) = some (Zipper.mk [0, 1] []) :=
  c7_step_inverse Nat ⟨[0, 1], []⟩ (by simp [Inv]) (by decide)

/-- C8: from the zipper over [0..9] refocused to 5, the forward traversal
yields exactly [5, 6, 7, 8, 9, 0, 1, 2, 3, 4] and the reverse traversal
exactly [5, 4, 3, 2, 1, 0, 9, 8, 7, 6], each original element once, with
none from the eleventh call on; the producers only read the zipper (next
keeps the zipper field intact), so the zipper itself is not changed. -/
theorem c8_traversals :
    (from_iter (List.range 10)).refocus (fun t => t == 5)
        = some (Zipper.mk [5, 6, 7, 8, 9] [4, 3, 2, 1, 0]) ∧
    iterOut (Zipper.iter (Zipper.mk [5, 6, 7, 8, 9] [4, 3, 2, 1, 0])) 12
        = some [some 5, some 6, some 7, some 8, some 9, some 0, some 1, some 2,
            some 3, some 4, none, none] ∧
    iterOut (Zipper.reverse_iter (Zipper.mk [5, 6, 7, 8, 9] [4, 3, 2, 1, 0])) 12
        = some [some 5, some 4, some 3, some 2, some 1, some 0, some 9, some 8,
            some 7, some 6, none, none] := by
  decide

/-- C9: on a zipper of size zero every public operation is the identity and
no pop is attempted: circle_step in either direction, refocus with any
predicate, reset_start and reset_end all return the zipper unchanged with no
modelled panic, and focus yields none. -/
theorem c9_empty_noop (α : Type) (z : Zipper α) (hs : z.size = 0)
    (d : SequenceDirection) (p : α → Bool) :
    z.circle_step d = some z ∧ z.refocus p = some z ∧
    z.reset_start = z ∧ z.reset_end = some z ∧ z.focus = none := by
  have hz0 := (size_eq_zero_iff z).mp hs
  subst hz0
  exact ⟨rfl, rfl, rfl, rfl, rfl⟩

/-- Witness for C9: all operations fix the empty zipper. -/
theorem c9_empty_noop_witness :
    Zipper.circle_step (Zipper.mk [] [] : Zipper Nat) SequenceDirection.Original
        = some (Zipper.mk [] []) ∧
    Zipper.refocus (Zipper.mk [] [] : Zipper Nat) (fun _ => true)
        = some (Zipper.mk [] []) ∧
    Zipper.reset_start (Zipper.mk [] [] : Zipper Nat) = Zipper.mk [] [] ∧
    Zipper.reset_end (Zipper.mk [] [] : Zipper Nat) = some (Zipper.mk [] []) ∧
    Zipper.focus (Zipper.mk [] [] : Zipper Nat) = none :=
  c9_empty_noop Nat ⟨[], []⟩ rfl SequenceDirection.Original (fun _ => true)

/-- C10: for every zipper, the empty one included, and both traversal
producers, n calls to next yield an element for exactly the first size
calls and none afterwards; the modelled usize underflow never fires
(iterOut never returns none) and every partition access chosen by the
offset arithmetic is in bounds (the first size yields are all some). -/
theorem c10_iterator_safety (α : Type) (z : Zipper α) (n : Nat) :
    (∃ outs : List (Option α), iterOut z.iter n = some outs ∧ outs.length = n ∧
      ∀ j, j < n → ((outs.getD j none).isSome = true ↔ j < z.size)) ∧
    (∃ outs : List (Option α), iterOut z.reverse_iter n = some outs ∧ outs.length = n ∧
      ∀ j, j < n → ((outs.getD j none).isSome = true ↔ j < z.size)) := by
  constructor
  · obtain ⟨outs, h1, h2, h3⟩ := iterOut_spec z SequenceDirection.Original n 0
    refine ⟨outs, ?_, h2, fun j hj => ?_⟩
    · rw [show z.iter = mkIter z SequenceDirection.Original 0 from rfl]
      exact h1
    · have h4 := h3 j hj
      simpa using h4
  · obtain ⟨outs, h1, h2, h3⟩ := iterOut_spec z SequenceDirection.Reverse n 0
    refine ⟨outs, ?_, h2, fun j hj => ?_⟩
    · rw [show z.reverse_iter = mkIter z SequenceDirection.Reverse 0 from rfl]
      exact h1
    · have h4 := h3 j hj
      simpa using h4

end RingZipper
